import Mathlib

/-!
Verification of the text-based enrichment service in `src/main.py`:
the keyword industry classifier, the prefecture extractor, the
excerpt selector, and the per-record enrichment orchestrator
`handle_batch_request`.

Text is modelled as `List Char`; Python substring containment
(`kw in text`) is `List.isInfixOf`; `re.search` is modelled as a
leftmost-start backtracking match of the concrete patterns used by
the code.
-/

namespace Scraping

/-- The fixed 19-entry industry keyword table `industry_keywords` of
`src/main.py`, in source order. -/
def industry_keywords : List (String × List String) :=
  [ ("農業・林業", ["農業", "林業", "栽培", "畜産", "伐採"]),
    ("漁業", ["漁業", "水産", "養殖", "漁港"]),
    ("鉱業、採石業、砂利採取業", ["採石", "鉱山", "採掘", "鉱業所"]),
    ("建設業", ["施工", "工事", "解体", "リフォーム", "内装", "外壁", "設計"]),
    ("製造業", ["製造", "加工", "工場", "生産", "部品"]),
    ("電気・ガス・熱供給・水道業", ["電力", "ガス", "水道", "インフラ"]),
    ("情報通信業", ["システム開発", "IT", "クラウド", "アプリ", "ソフトウェア"]),
    ("運輸業、郵便業", ["運送", "物流", "配送", "トラック", "郵便"]),
    ("卸売業、小売業", ["販売", "小売", "卸", "通販", "店舗"]),
    ("金融業、保険業", ["保険", "金融", "銀行", "証券", "ローン"]),
    ("不動産業、物品賃貸業", ["不動産", "賃貸", "仲介", "物件"]),
    ("学術研究、専門・技術サービス業", ["研究", "開発", "技術支援", "コンサル"]),
    ("宿泊業、飲食サービス業", ["ホテル", "旅館", "飲食", "レストラン"]),
    ("生活関連サービス業、娯楽業", ["美容院", "マッサージ", "娯楽", "エステ", "ペット"]),
    ("教育、学習支援業", ["教育", "学校", "学習", "塾", "研修"]),
    ("医療、福祉", ["クリニック", "病院", "介護", "看護", "福祉施設"]),
    ("複合サービス事業", ["郵便局", "農協", "生協", "漁協"]),
    ("サービス業（他に分類されないもの）", ["清掃", "警備", "レンタル", "代行", "メンテナンス"]),
    ("公務（他に分類されるものを除く)", ["市役所", "官公庁", "自治体", "行政"]) ]

/-- The sentinel label returned when no keyword matches. -/
def unclassifiable : String := "分類不能の産業"

/-- Python substring containment `pat in text`: `pat` occurs
contiguously in `text`. -/
def hasSubstr (pat text : List Char) : Bool :=
  (List.range (text.length + 1)).any fun i => pat.isPrefixOf (text.drop i)

/-- The hit list built by the double loop of
`extract_industry_and_prefecture`: one entry (the label) per keyword
of the table that occurs as a substring of the text, in table order. -/
def keyword_hits (text : List Char) : List String :=
  industry_keywords.flatMap fun p =>
    (p.2.filter fun kw => hasSubstr kw.toList text).map fun _ => p.1

/-- Distinct elements in order of first occurrence, skipping those
already in `seen`. -/
def firstSeenKeysAux : List String → List String → List String
  | [], _ => []
  | x :: xs, seen =>
      if x ∈ seen then firstSeenKeysAux xs seen
      else x :: firstSeenKeysAux xs (x :: seen)

/-- The distinct elements of a list in order of first occurrence:
the key order of a Python `Counter` built by repeated insertion. -/
def firstSeenKeys (l : List String) : List String :=
  firstSeenKeysAux l []

/-- `Counter(hits).most_common(1)[0][0]`: the first key, in insertion
order, whose multiplicity in `hits` is maximal (Python `max` over
`Counter.items()` breaks ties toward the first-inserted key). -/
def mostCommonLabel (hits : List String) : Option String :=
  (firstSeenKeys hits).find? fun k =>
    (firstSeenKeys hits).all fun k2 => hits.count k2 ≤ hits.count k

/-- The industry computed by `extract_industry_and_prefecture`:
the sentinel if no keyword hit, else the most common hit label. -/
def extract_industry (text : List Char) : String :=
  let hits := keyword_hits text
  if hits.isEmpty then unclassifiable
  else (mostCommonLabel hits).getD unclassifiable

/-! ### Prefecture extractor

`src/main.py` line 59 searches
`(本社所在地|本社|所在地|住所|事業所|〒)?[^。・\n\r]{0,20}?` + `pref_pattern`
with `pref_pattern = (東京都|北海道|(?:京都|大阪)府|.{2,3}県)`, falling
back to a bare `pref_pattern` search.  We model Python `re.search` as a
leftmost-start backtracking match: start positions are tried left to
right; at each start the optional cue alternatives are tried in order,
then the empty cue; the lazy gap grows from 0 to 20 non-delimiter
characters; `.` matches any character except a newline, and `.{2,3}`
greedily tries three characters before two. -/

/-- Characters excluded from the gap class `[^。・\n\r]`. -/
def isDelim (c : Char) : Bool :=
  c = '。' || c = '・' || c = '\n' || c = '\r'

/-- Match of `pref_pattern` against the suffix `s`, returning the
captured prefecture text.  Alternatives in source order; `.{2,3}県`
greedily tries three `.` characters, then two; `.` matches anything
but a newline. -/
def prefMatch (s : List Char) : Option (List Char) :=
  if "東京都".toList.isPrefixOf s then some "東京都".toList
  else if "北海道".toList.isPrefixOf s then some "北海道".toList
  else if "京都府".toList.isPrefixOf s then some "京都府".toList
  else if "大阪府".toList.isPrefixOf s then some "大阪府".toList
  else
    match s with
    | a :: b :: c :: d :: _ =>
        if a ≠ '\n' ∧ b ≠ '\n' ∧ c ≠ '\n' ∧ d = '県' then some [a, b, c, d]
        else if a ≠ '\n' ∧ b ≠ '\n' ∧ c = '県' then some [a, b, c]
        else none
    | [a, b, c] =>
        if a ≠ '\n' ∧ b ≠ '\n' ∧ c = '県' then some [a, b, c] else none
    | _ => none

/-- Match of `pref_pattern` at position `i` of `t`. -/
def prefAt (t : List Char) (i : Nat) : Option (List Char) :=
  prefMatch (t.drop i)

/-- The address-cue alternatives of the optional group, in source
order. -/
def addressCues : List (List Char) :=
  ["本社所在地".toList, "本社".toList, "所在地".toList, "住所".toList,
   "事業所".toList, "〒".toList]

/-- Lazy gap `[^。・\n\r]{0,20}?` starting at `e`, then `pref_pattern`:
the smallest gap length `g ≤ 20` whose characters are all
non-delimiters and after which the prefecture pattern matches. -/
def gapSearch (t : List Char) (e : Nat) : Option (List Char) :=
  (List.range 21).findSome? fun g =>
    if ((t.drop e).take g).length = g ∧ ((t.drop e).take g).all (fun c => !isDelim c)
    then prefAt t (e + g) else none

/-- Try one cue alternative at start `i`: the cue must be a literal
prefix there, then the gap-and-prefecture continuation must match. -/
def tryCue (t : List Char) (i : Nat) (cue : List Char) : Option (List Char) :=
  if cue.isPrefixOf (t.drop i) then gapSearch t (i + cue.length) else none

/-- Match of the full combined pattern at start `i`: cue alternatives
in order, then the empty cue (the group is optional). -/
def matchAt (t : List Char) (i : Nat) : Option (List Char) :=
  (addressCues ++ [[]]).findSome? (tryCue t i)

/-- `re.search` of the combined pattern: leftmost matching start
position; the returned value is capture group 2 (the prefecture). -/
def regexSearchPref (t : List Char) : Option (List Char) :=
  (List.range (t.length + 1)).findSome? (matchAt t)

/-- `re.search(pref_pattern, text)` of the fallback branch. -/
def prefFallback (t : List Char) : Option (List Char) :=
  (List.range (t.length + 1)).findSome? (prefAt t)

/-- The prefecture computed by `extract_industry_and_prefecture`
(lines 58-65): cue-optional combined search first, else bare pattern
search, else the empty string. -/
def extract_prefecture (t : List Char) : String :=
  match regexSearchPref t with
  | some p => String.mk p
  | none =>
      match prefFallback t with
      | some p => String.mk p
      | none => ""

/-- Both values returned by `extract_industry_and_prefecture`. -/
def extractIP (t : List Char) : String × String :=
  (extract_industry t, extract_prefecture t)

/-! ### Excerpt selector

Lines 121-128: when the industry is still the sentinel, search
`(業務内容|事業内容|サービス|施工.*?)[^\n]{0,100}` in the target text;
on a match take the slice from `match.start() - 100` (clamped to 0) to
`match.end() + 200` (clamped to the length) and strip it, else strip
the first 300 characters.  The lazy `.*?` after `施工` always stays
empty (nothing forces it to grow), so the group matches exactly one of
the four literals; the greedy trailer `[^\n]{0,100}` then absorbs up
to 100 non-newline characters. -/

/-- The business-description cue literals, in source order.  Their
first characters are pairwise distinct, so at most one matches at any
position. -/
def descCues : List (List Char) :=
  ["業務内容".toList, "事業内容".toList, "サービス".toList, "施工".toList]

/-- Cue-group match at position `i`: returns the end of the matched
literal. -/
def cueAt (t : List Char) (i : Nat) : Option Nat :=
  descCues.findSome? fun c =>
    if c.isPrefixOf (t.drop i) then some (i + c.length) else none

/-- Leftmost cue match: `(start of the whole match, end of the cue
group)`. -/
def cueSearch (t : List Char) : Option (Nat × Nat) :=
  (List.range (t.length + 1)).findSome? fun i =>
    (cueAt t i).map fun e => (i, e)

/-- Length matched by the greedy trailer `[^\n]{0,100}` from
position `e`. -/
def tailRun (t : List Char) (e : Nat) : Nat :=
  min 100 ((t.drop e).takeWhile (fun c => c ≠ '\n')).length

/-- Python whitespace for `str.strip()` (ASCII whitespace plus the
ideographic and no-break spaces that occur in scraped Japanese text). -/
def isPySpace (c : Char) : Bool :=
  c = ' ' || c = '\t' || c = '\n' || c = '\r' || c = '\x0b' || c = '\x0c' ||
  c = '　' || c = ' '

/-- Python `str.strip()`. -/
def pyStrip (l : List Char) : List Char :=
  ((l.dropWhile isPySpace).reverse.dropWhile isPySpace).reverse

/-- The `dify_context` excerpt of lines 121-128 (computed only when
the industry is the sentinel): slice from `match.start() - 100`
(clamped to 0 by truncated subtraction) to `match.end() + 200`
(clamped to the length), stripped; without a cue match, the first 300
characters, stripped. -/
def dify_context (t : List Char) : List Char :=
  match cueSearch t with
  | some (i, pe) =>
      pyStrip ((t.drop (i - 100)).take
        (min t.length (pe + tailRun t pe + 200) - (i - 100)))
  | none => pyStrip (t.take 300)

/-! ### Orchestrator (`handle_batch_request`)

External effects are modelled by per-record outcome values: the
DuckDuckGo search either raises, returns no results, or returns one
result with `href` and `body`; the page fetch (when attempted) either
raises or returns a status code together with the text extracted from
the response body. -/

/-- One element of `payload.items`. -/
structure CompanyItem where
  company_name : String
  phone_number : String
  email : String
deriving DecidableEq, Repr

/-- Outcome of `ddgs.text(query, ...)` for one record. -/
inductive SearchRes where
  | fail : SearchRes
  | empty : SearchRes
  | found : String → String → SearchRes
deriving DecidableEq, Repr

/-- Outcome of `requests.get(url, ...)` for one record, when the
fetch is attempted: an exception, or a status code and the text
`BeautifulSoup(...).get_text()` would extract. -/
inductive FetchRes where
  | fail : FetchRes
  | ok : Nat → String → FetchRes
deriving DecidableEq, Repr

/-- One output record (lines 130-137); `excerpt` is the internal
`"_text_excerpt"` key. -/
structure Enriched where
  company_name : String
  email : String
  url : String
  industry : String
  prefecture : String
  excerpt : String
deriving DecidableEq, Repr

/-- `url` after step 1: the result's `href`, else `""`. -/
def searchUrl : SearchRes → String
  | .found u _ => u
  | _ => ""

/-- `info` after step 1: the result's `body` snippet, else `""`. -/
def searchInfo : SearchRes → String
  | .found _ b => b
  | _ => ""

/-- Line 108 condition: the page fetch is attempted iff the
snippet-derived industry is the sentinel or the snippet-derived
prefecture is empty. -/
def fetchTriggered (sres : SearchRes) : Bool :=
  extract_industry (searchInfo sres).toList == unclassifiable ||
  extract_prefecture (searchInfo sres).toList == ""

/-- `text` after step 2: the page text when the fetch was attempted
and returned status 200, else `""`. -/
def pageText (sres : SearchRes) (fres : FetchRes) : String :=
  if fetchTriggered sres then
    match fres with
    | .ok 200 pt => pt
    | _ => ""
  else ""

/-- `(industry, prefecture)` after step 2: recomputed from the page
text on a successful fetch, else the snippet-derived pair. -/
def finalIP (sres : SearchRes) (fres : FetchRes) : String × String :=
  if fetchTriggered sres then
    match fres with
    | .ok 200 pt => extractIP pt.toList
    | _ => extractIP (searchInfo sres).toList
  else extractIP (searchInfo sres).toList

/-- Line 119: `target_text = text if text else info`. -/
def targetText (sres : SearchRes) (fres : FetchRes) : String :=
  if pageText sres fres ≠ "" then pageText sres fres else searchInfo sres

/-- The record appended for one input item (lines 93-137). -/
def processRecord (item : CompanyItem) (sres : SearchRes) (fres : FetchRes) :
    Enriched :=
  { company_name := item.company_name
    email := item.email
    url := searchUrl sres
    industry := (finalIP sres fres).1
    prefecture := (finalIP sres fres).2
    excerpt :=
      if (finalIP sres fres).1 = unclassifiable then
        String.mk (dify_context (targetText sres fres).toList)
      else "" }

/-- The per-record loop: one output record per input record, in input
order. -/
def enrichAll (recs : List (CompanyItem × SearchRes × FetchRes)) :
    List Enriched :=
  recs.map fun r => processRecord r.1 r.2.1 r.2.2

/-- Line 139: the records sent to the external classifier. -/
def difyTargets (out : List Enriched) : List Enriched :=
  out.filter fun r => r.industry == unclassifiable

/-- The `info_list` entries of the Dify payload (lines 145-148). -/
def difyInfoList (targets : List Enriched) : List (String × String) :=
  targets.map fun r => (r.company_name, r.excerpt)

/-- The payload assembled for the external classification service. -/
structure DifyPayload where
  industry_texts : String
  info_list : List (String × String)
deriving DecidableEq, Repr

/-- Lines 141-153: build (and log) the payload when there are targets.
The call itself and the write-back of its predictions are commented
out in the source, so the payload does not influence the response. -/
def mkDifyPayload (industryTexts : String) (out : List Enriched) :
    Option DifyPayload :=
  if difyTargets out ≠ [] then
    some ⟨industryTexts, difyInfoList (difyTargets out)⟩
  else none

/-- `handle_batch_request`: loop over the items, build the Dify
payload for logging, return the enriched list. -/
def handle_batch_request (industryTexts : String)
    (recs : List (CompanyItem × SearchRes × FetchRes)) : List Enriched :=
  let enriched := enrichAll recs
  let _payload := mkDifyPayload industryTexts enriched
  enriched

/-! ### Confidence, modelled from the spec

The revision in `src/` returns no confidence value from the
classifier; spec §4.1 defines one over the same hit counts, and the
claims about confidence are settled against this model. -/

/-- Modelled from the spec: `max_count`, the highest label frequency
in the hit list (missing from the `src/` revision, which keeps only
`most_common(1)`). -/
def maxCount (hits : List String) : Nat :=
  (hits.map fun k => hits.count k).foldr max 0

/-- Modelled from the spec: the candidate labels — all labels
achieving `max_count` — in first-seen order (missing from the `src/`
revision). -/
def candidates (hits : List String) : List String :=
  (firstSeenKeys hits).filter fun k => hits.count k = maxCount hits

/-- Modelled from the spec: confidence is confirmed only if exactly
one candidate label achieved `max_count` and `max_count ≥ 2`; all
other cases are unconfirmed (missing from the `src/` revision). -/
def spec_confidence (text : List Char) : String :=
  if (candidates (keyword_hits text)).length = 1 ∧
      2 ≤ maxCount (keyword_hits text)
  then "confirmed" else "unconfirmed"

/-- The labels of the keyword table. -/
def industryLabels : List String :=
  industry_keywords.map Prod.fst

/-! ### Helper lemmas -/

/-- Every hit in the hit list is a label of the table. -/
theorem keyword_hits_subset {t : List Char} {k : String}
    (h : k ∈ keyword_hits t) : k ∈ industryLabels := by
  rcases List.mem_flatMap.mp h with ⟨p, hp, hk⟩
  rcases List.mem_map.mp hk with ⟨kw, _, rfl⟩
  exact List.mem_map.mpr ⟨p, hp, rfl⟩

theorem mem_firstSeenKeysAux {a : String} :
    ∀ {l seen : List String}, a ∈ firstSeenKeysAux l seen ↔ a ∈ l ∧ a ∉ seen := by
  intro l
  induction l with
  | nil => intro seen; simp [firstSeenKeysAux]
  | cons x xs ih =>
      intro seen
      by_cases hx : x ∈ seen
      · simp only [firstSeenKeysAux, if_pos hx, ih, List.mem_cons]
        constructor
        · rintro ⟨h1, h2⟩; exact ⟨Or.inr h1, h2⟩
        · rintro ⟨h1 | h1, h2⟩
          · exact absurd (h1 ▸ hx) h2
          · exact ⟨h1, h2⟩
      · simp only [firstSeenKeysAux, if_neg hx, List.mem_cons, ih]
        constructor
        · rintro (rfl | ⟨h1, h2⟩)
          · exact ⟨Or.inl rfl, hx⟩
          · exact ⟨Or.inr h1, fun hs => h2 (Or.inr hs)⟩
        · rintro ⟨h1, h2⟩
          by_cases hax : a = x
          · exact Or.inl hax
          · rcases h1 with rfl | h1
            · exact Or.inl rfl
            · exact Or.inr ⟨h1, fun hs => hs.elim hax h2⟩

theorem nodup_firstSeenKeysAux :
    ∀ (l seen : List String), (firstSeenKeysAux l seen).Nodup := by
  intro l
  induction l with
  | nil => intro seen; simp [firstSeenKeysAux]
  | cons x xs ih =>
      intro seen
      by_cases hx : x ∈ seen
      · simpa [firstSeenKeysAux, if_pos hx] using ih seen
      · simp only [firstSeenKeysAux, if_neg hx, List.nodup_cons]
        refine ⟨fun hmem => ?_, ih (x :: seen)⟩
        exact (mem_firstSeenKeysAux.mp hmem).2 (List.mem_cons_self x seen)

theorem mem_firstSeenKeys {a : String} {l : List String} :
    a ∈ firstSeenKeys l ↔ a ∈ l := by
  simp [firstSeenKeys, mem_firstSeenKeysAux]

theorem nodup_firstSeenKeys (l : List String) : (firstSeenKeys l).Nodup :=
  nodup_firstSeenKeysAux l []

theorem le_foldr_max {a : Nat} : ∀ {l : List Nat}, a ∈ l → a ≤ l.foldr max 0 := by
  intro l
  induction l with
  | nil => intro h; cases h
  | cons x xs ih =>
      intro h
      rcases List.mem_cons.mp h with rfl | h
      · exact Nat.le_max_left _ _
      · exact le_trans (ih h) (Nat.le_max_right _ _)

theorem foldr_max_mem : ∀ (l : List Nat), l ≠ [] → l.foldr max 0 ∈ l := by
  intro l
  induction l with
  | nil => intro h; exact absurd rfl h
  | cons x xs ih =>
      intro _
      rcases eq_or_ne xs [] with rfl | hne
      · simp
      · simp only [List.foldr_cons]
        rcases le_total x (xs.foldr max 0) with h1 | h1
        · rw [Nat.max_eq_right h1]
          exact List.mem_cons_of_mem x (ih hne)
        · rw [Nat.max_eq_left h1]
          exact List.mem_cons_self x xs

theorem exists_argmax (f : String → Nat) :
    ∀ (l : List String), l ≠ [] → ∃ a ∈ l, ∀ b ∈ l, f b ≤ f a := by
  intro l
  induction l with
  | nil => intro h; exact absurd rfl h
  | cons x xs ih =>
      intro _
      rcases eq_or_ne xs [] with rfl | hne
      · exact ⟨x, List.mem_cons_self x [], by simp⟩
      · rcases ih hne with ⟨a, ha, hmax⟩
        rcases le_total (f x) (f a) with h1 | h1
        · refine ⟨a, List.mem_cons_of_mem x ha, ?_⟩
          intro b hb
          rcases List.mem_cons.mp hb with rfl | hb
          · exact h1
          · exact hmax b hb
        · refine ⟨x, List.mem_cons_self x xs, ?_⟩
          intro b hb
          rcases List.mem_cons.mp hb with rfl | hb
          · exact le_refl _
          · exact le_trans (hmax b hb) h1

theorem find?_split {p : String → Bool} :
    ∀ {l : List String} {a : String}, l.find? p = some a →
      ∃ l1 l2, l = l1 ++ a :: l2 ∧ ∀ b ∈ l1, p b = false := by
  intro l
  induction l with
  | nil => intro a h; simp [List.find?] at h
  | cons x xs ih =>
      intro a h
      by_cases hx : p x
      · rw [List.find?_cons_of_pos _ hx] at h
        cases h
        exact ⟨[], xs, rfl, by simp⟩
      · rw [List.find?_cons_of_neg _ hx] at h
        rcases ih h with ⟨l1, l2, hsplit, hl1⟩
        refine ⟨x :: l1, l2, by rw [hsplit, List.cons_append], ?_⟩
        intro b hb
        rcases List.mem_cons.mp hb with rfl | hb
        · simpa using hx
        · exact hl1 b hb

/-- When the hit list is nonempty, `Counter(...).most_common(1)` has a
first element. -/
theorem mostCommonLabel_isSome {hits : List String} (h : hits ≠ []) :
    ∃ a, mostCommonLabel hits = some a := by
  have hkeys : firstSeenKeys hits ≠ [] := by
    rcases List.exists_mem_of_ne_nil hits h with ⟨x, hx⟩
    intro hnil
    exact absurd (mem_firstSeenKeys.mpr hx) (by simp [hnil])
  rcases exists_argmax (fun k => hits.count k) (firstSeenKeys hits) hkeys with
    ⟨a, ha, hmax⟩
  have : ∃ x ∈ firstSeenKeys hits,
      ((firstSeenKeys hits).all fun k2 => hits.count k2 ≤ hits.count x) = true :=
    ⟨a, ha, List.all_eq_true.mpr fun k2 hk2 => by exact decide_eq_true (hmax k2 hk2)⟩
  rcases Option.isSome_iff_exists.mp (List.find?_isSome.mpr this) with ⟨b, hb⟩
  exact ⟨b, hb⟩

/-- Unfolding of `extract_industry` on a nonempty hit list. -/
theorem extract_industry_eq_some {t : List Char} (h : keyword_hits t ≠ []) :
    ∃ a, mostCommonLabel (keyword_hits t) = some a ∧ extract_industry t = a := by
  rcases mostCommonLabel_isSome h with ⟨a, ha⟩
  refine ⟨a, ha, ?_⟩
  unfold extract_industry
  rw [if_neg (by simpa [List.isEmpty_iff] using h), ha]
  rfl

/-- The most common label achieves the maximal hit count. -/
theorem mostCommonLabel_max {hits : List String} {a : String}
    (ha : mostCommonLabel hits = some a) :
    ∀ k ∈ hits, hits.count k ≤ hits.count a := by
  intro k hk
  have hp := List.find?_some ha
  have := List.all_eq_true.mp hp k (mem_firstSeenKeys.mpr hk)
  exact of_decide_eq_true this

/-- The most common label is a hit. -/
theorem mostCommonLabel_mem {hits : List String} {a : String}
    (ha : mostCommonLabel hits = some a) : a ∈ hits :=
  mem_firstSeenKeys.mp (List.mem_of_find?_eq_some ha)

theorem prefMatch_nil : prefMatch [] = none := by decide

theorem prefMatch_ne_nil {s p : List Char} (h : prefMatch s = some p) :
    p ≠ [] := by
  unfold prefMatch at h
  repeat' split at h
  all_goals cases h
  all_goals first | decide | simp

theorem prefAt_some_lt {t : List Char} {i : Nat} {p : List Char}
    (h : prefAt t i = some p) : i < t.length := by
  by_contra hle
  push_neg at hle
  rw [prefAt, List.drop_eq_nil_of_le hle, prefMatch_nil] at h
  cases h

theorem gapSearch_none {t : List Char} (hall : ∀ j, prefAt t j = none)
    (e : Nat) : gapSearch t e = none := by
  rw [gapSearch]
  refine List.findSome?_eq_none.mpr fun g _ => ?_
  split
  · exact hall (e + g)
  · rfl

theorem matchAt_none {t : List Char} (hall : ∀ j, prefAt t j = none)
    (i : Nat) : matchAt t i = none := by
  rw [matchAt]
  refine List.findSome?_eq_none.mpr fun cue _ => ?_
  rw [tryCue]
  split
  · exact gapSearch_none hall _
  · rfl

theorem gapSearch_some {t : List Char} {e : Nat} {p : List Char}
    (h : gapSearch t e = some p) : ∃ j, prefAt t j = some p := by
  rw [gapSearch] at h
  rcases List.exists_of_findSome?_eq_some h with ⟨g, _, hg⟩
  revert hg
  split
  · intro hg; exact ⟨e + g, hg⟩
  · intro hg; cases hg

theorem matchAt_some {t : List Char} {i : Nat} {p : List Char}
    (h : matchAt t i = some p) : ∃ j, prefAt t j = some p := by
  rw [matchAt] at h
  rcases List.exists_of_findSome?_eq_some h with ⟨cue, _, hc⟩
  rw [tryCue] at hc
  revert hc
  split
  · intro hc; exact gapSearch_some hc
  · intro hc; cases hc

theorem filter_length_one_iff {p : String → Bool} {l : List String}
    (hnd : l.Nodup) :
    (l.filter p).length = 1 ↔ ∃! a, a ∈ l ∧ p a = true := by
  constructor
  · intro h
    rcases List.length_eq_one.mp h with ⟨a, ha⟩
    have hmem : a ∈ l.filter p := ha ▸ List.mem_cons_self a []
    refine ⟨a, List.mem_filter.mp hmem, ?_⟩
    intro b hb
    have hbf : b ∈ l.filter p := List.mem_filter.mpr hb
    rw [ha] at hbf
    simpa using hbf
  · rintro ⟨a, ⟨hal, hap⟩, huniq⟩
    have hmem : a ∈ l.filter p := List.mem_filter.mpr ⟨hal, hap⟩
    have hall : ∀ b ∈ l.filter p, b = a := fun b hb =>
      huniq b (List.mem_filter.mp hb)
    have hndf : (l.filter p).Nodup := hnd.filter p
    rcases hfp : l.filter p with _ | ⟨x, xs⟩
    · rw [hfp] at hmem; cases hmem
    · rcases xs with _ | ⟨y, ys⟩
      · rfl
      · exfalso
        rw [hfp] at hall hndf
        have hx : x = a := hall x (by simp)
        have hy : y = a := hall y (by simp)
        exact (List.nodup_cons.mp hndf).1
          (by rw [hx, hy]; exact List.mem_cons_self a ys)

/-! ### Claim theorems -/

/-- C1, counterexample: the text `農業と漁業` hits exactly two labels
(`農業・林業` and `漁業`) once each — a two-way tie at the maximal
count — yet the classifier returns only the first-seen label, not the
two labels comma-joined (the second label does not even occur in the
output). -/
theorem C1_tie_counterexample :
    keyword_hits "農業と漁業".toList = ["農業・林業", "漁業"] ∧
    extract_industry "農業と漁業".toList = "農業・林業" ∧
    hasSubstr "漁業".toList (extract_industry "農業と漁業".toList).toList = false := by
  refine ⟨by decide, by decide, by decide⟩

/-- C1, amended: on any text with at least one keyword hit, the
classifier returns the single label that achieves the maximal hit
count and occurs first in first-seen order: the returned label is in
the key list, its count dominates every hit's count, and every key
seen before it has a strictly smaller count.  Tied labels are not
joined and no confidence value is produced. -/
theorem C1_most_common_first_seen (t : List Char)
    (h : keyword_hits t ≠ []) :
    ∃ pre suf,
      firstSeenKeys (keyword_hits t) = pre ++ extract_industry t :: suf ∧
      (∀ k ∈ keyword_hits t,
        (keyword_hits t).count k ≤ (keyword_hits t).count (extract_industry t)) ∧
      ∀ b ∈ pre,
        (keyword_hits t).count b < (keyword_hits t).count (extract_industry t) := by
  rcases extract_industry_eq_some h with ⟨a, ha, hea⟩
  rw [hea]
  rcases find?_split ha with ⟨pre, suf, hsplit, hpre⟩
  refine ⟨pre, suf, hsplit, mostCommonLabel_max ha, ?_⟩
  intro b hb
  have hfalse := hpre b hb
  have hnotall : ¬ ∀ k2 ∈ firstSeenKeys (keyword_hits t),
      (keyword_hits t).count k2 ≤ (keyword_hits t).count b := by
    intro hall
    have htrue : ((firstSeenKeys (keyword_hits t)).all fun k2 =>
        (keyword_hits t).count k2 ≤ (keyword_hits t).count b) = true :=
      List.all_eq_true.mpr fun k2 hk2 => decide_eq_true (hall k2 hk2)
    rw [hfalse] at htrue
    cases htrue
  push_neg at hnotall
  rcases hnotall with ⟨k2, hk2, hgt⟩
  exact lt_of_lt_of_le hgt
    (mostCommonLabel_max ha k2 (mem_firstSeenKeys.mp hk2))

/-- Witness for C1's amended theorem at the tie text. -/
theorem C1_most_common_first_seen_witness :
    keyword_hits "農業と漁業".toList ≠ [] ∧
    ∃ pre suf,
      firstSeenKeys (keyword_hits "農業と漁業".toList) =
        pre ++ extract_industry "農業と漁業".toList :: suf ∧
      (∀ k ∈ keyword_hits "農業と漁業".toList,
        (keyword_hits "農業と漁業".toList).count k ≤
          (keyword_hits "農業と漁業".toList).count
            (extract_industry "農業と漁業".toList)) ∧
      ∀ b ∈ pre,
        (keyword_hits "農業と漁業".toList).count b <
          (keyword_hits "農業と漁業".toList).count
            (extract_industry "農業と漁業".toList) :=
  ⟨by decide, C1_most_common_first_seen "農業と漁業".toList (by decide)⟩

/-- C2, counterexample: in `振込先は銀行` the finance keyword `銀行`
is immediately preceded by the cue `振込先`, there is no other hit,
and yet the classifier returns the finance label, not the sentinel —
no suppression happens. -/
theorem C2_no_suppression_counterexample :
    keyword_hits "振込先は銀行".toList = ["金融業、保険業"] ∧
    extract_industry "振込先は銀行".toList = "金融業、保険業" ∧
    ("金融業、保険業" : String) ≠ unclassifiable := by
  refine ⟨by decide, by decide, by decide⟩

/-- C2, amended: the classifier applies no context suppression at
all: whenever a finance keyword occurs anywhere in the text —
whatever precedes it — the finance label enters the hit list and the
classifier does not return the sentinel. -/
theorem C2_finance_hit_never_discarded (t : List Char) (kw : String)
    (hkw : kw ∈ ["保険", "金融", "銀行", "証券", "ローン"])
    (hsub : hasSubstr kw.toList t = true) :
    "金融業、保険業" ∈ keyword_hits t ∧ extract_industry t ≠ unclassifiable := by
  have hpair : ("金融業、保険業", ["保険", "金融", "銀行", "証券", "ローン"]) ∈
      industry_keywords := by decide
  have hmem : "金融業、保険業" ∈ keyword_hits t := by
    refine List.mem_flatMap.mpr ⟨_, hpair, ?_⟩
    exact List.mem_map.mpr ⟨kw, List.mem_filter.mpr ⟨hkw, hsub⟩, rfl⟩
  have hne : keyword_hits t ≠ [] := fun hnil => by simp [hnil] at hmem
  rcases extract_industry_eq_some hne with ⟨a, ha, hea⟩
  refine ⟨hmem, ?_⟩
  rw [hea]
  have hlab : a ∈ industryLabels := keyword_hits_subset (mostCommonLabel_mem ha)
  intro hcontra
  rw [hcontra] at hlab
  revert hlab
  decide

/-- Witness for C2's amended theorem at the cue-prefixed text. -/
theorem C2_finance_hit_never_discarded_witness :
    "銀行" ∈ ["保険", "金融", "銀行", "証券", "ローン"] ∧
    hasSubstr "銀行".toList "振込先は銀行".toList = true ∧
    ("金融業、保険業" ∈ keyword_hits "振込先は銀行".toList ∧
      extract_industry "振込先は銀行".toList ≠ unclassifiable) :=
  ⟨by decide, by decide,
    C2_finance_hit_never_discarded "振込先は銀行".toList "銀行"
      (by decide) (by decide)⟩

/-- C3 (confidence modelled from the spec): on any text with at least
one hit, the modelled confidence is confirmed iff exactly one label
achieves the maximal hit count and that count is at least 2. -/
theorem C3_confirmed_iff_unique_max (t : List Char)
    (h : keyword_hits t ≠ []) :
    spec_confidence t = "confirmed" ↔
      ((∃! k, k ∈ firstSeenKeys (keyword_hits t) ∧
          (keyword_hits t).count k = maxCount (keyword_hits t)) ∧
        2 ≤ maxCount (keyword_hits t)) := by
  unfold spec_confidence
  by_cases hc : (candidates (keyword_hits t)).length = 1 ∧
      2 ≤ maxCount (keyword_hits t)
  · rw [if_pos hc]
    simp only [true_iff, iff_true]
    constructor
    · have := (filter_length_one_iff
        (nodup_firstSeenKeys (keyword_hits t))).mp hc.1
      rcases this with ⟨a, ⟨ha1, ha2⟩, hu⟩
      refine ⟨a, ⟨ha1, of_decide_eq_true ha2⟩, ?_⟩
      intro b ⟨hb1, hb2⟩
      exact hu b ⟨hb1, decide_eq_true hb2⟩
    · exact hc.2
  · rw [if_neg hc]
    constructor
    · intro habs
      exact absurd habs (by decide)
    · rintro ⟨⟨a, ⟨ha1, ha2⟩, hu⟩, hmax⟩
      exfalso
      refine hc ⟨?_, hmax⟩
      refine (filter_length_one_iff
        (nodup_firstSeenKeys (keyword_hits t))).mpr ?_
      refine ⟨a, ⟨ha1, decide_eq_true ha2⟩, ?_⟩
      intro b ⟨hb1, hb2⟩
      exact hu b ⟨hb1, of_decide_eq_true hb2⟩

/-- Witness for C3 at a text with two distinct keywords of one
industry: confidence is confirmed. -/
theorem C3_confirmed_iff_unique_max_witness :
    keyword_hits "施工と工事".toList ≠ [] ∧
    spec_confidence "施工と工事".toList = "confirmed" ∧
    (spec_confidence "施工と工事".toList = "confirmed" ↔
      ((∃! k, k ∈ firstSeenKeys (keyword_hits "施工と工事".toList) ∧
          (keyword_hits "施工と工事".toList).count k =
            maxCount (keyword_hits "施工と工事".toList)) ∧
        2 ≤ maxCount (keyword_hits "施工と工事".toList))) :=
  ⟨by decide, by decide,
    C3_confirmed_iff_unique_max "施工と工事".toList (by decide)⟩

/-- C8: the classifier only ever returns the sentinel or one of the
19 fixed labels of the table, and so does every record the
orchestrator builds. -/
theorem C8_closed_label_set :
    (∀ t, extract_industry t ∈ unclassifiable :: industryLabels) ∧
    ∀ item sres fres,
      (processRecord item sres fres).industry ∈
        unclassifiable :: industryLabels := by
  have hext : ∀ t, extract_industry t ∈ unclassifiable :: industryLabels := by
    intro t
    rcases eq_or_ne (keyword_hits t) [] with hnil | hne
    · unfold extract_industry
      rw [if_pos (by simp [List.isEmpty_iff, hnil])]
      exact List.mem_cons_self _ _
    · rcases extract_industry_eq_some hne with ⟨a, ha, hea⟩
      rw [hea]
      exact List.mem_cons_of_mem _
        (keyword_hits_subset (mostCommonLabel_mem ha))
  refine ⟨hext, ?_⟩
  intro item sres fres
  show (finalIP sres fres).1 ∈ unclassifiable :: industryLabels
  unfold finalIP
  split
  · split
    · exact hext _
    · exact hext _
  · exact hext _

/-- C4, counterexample: the snippet `施工と工事` already yields a
set (non-sentinel) industry, the fetch is triggered only because the
prefecture is empty, and after a 200 fetch of a page saying `保険`
the snippet-derived industry is overwritten. -/
theorem C4_overwrite_counterexample :
    extract_industry "施工と工事".toList = "建設業" ∧
    fetchTriggered (SearchRes.found "u" "施工と工事") = true ∧
    (processRecord ⟨"n", "p", "e"⟩ (SearchRes.found "u" "施工と工事")
        (FetchRes.ok 200 "保険")).industry = "金融業、保険業" ∧
    ("金融業、保険業" : String) ≠ "建設業" := by
  refine ⟨by decide, by decide, by decide, by decide⟩

/-- C4, amended: whenever the fetch is triggered and returns status
200, the orchestrator recomputes BOTH industry and prefecture from
the page text, unconditionally overwriting the snippet-derived
values; only on a failed fetch, or when no fetch is triggered, are
the snippet-derived values kept. -/
theorem C4_page_pass_overwrites_both (item : CompanyItem)
    (sres : SearchRes) (fres : FetchRes) (pt : String) :
    (fetchTriggered sres = true → fres = FetchRes.ok 200 pt →
      (processRecord item sres fres).industry = extract_industry pt.toList ∧
      (processRecord item sres fres).prefecture =
        extract_prefecture pt.toList) ∧
    (fetchTriggered sres = true → fres = FetchRes.fail →
      (processRecord item sres fres).industry =
        extract_industry (searchInfo sres).toList ∧
      (processRecord item sres fres).prefecture =
        extract_prefecture (searchInfo sres).toList) ∧
    (fetchTriggered sres = false →
      (processRecord item sres fres).industry =
        extract_industry (searchInfo sres).toList ∧
      (processRecord item sres fres).prefecture =
        extract_prefecture (searchInfo sres).toList) := by
  refine ⟨?_, ?_, ?_⟩
  · intro h hf
    subst hf
    have hfin : finalIP sres (FetchRes.ok 200 pt) = extractIP pt.toList := by
      unfold finalIP
      rw [h]
      rfl
    exact ⟨congrArg Prod.fst hfin, congrArg Prod.snd hfin⟩
  · intro h hf
    subst hf
    have hfin : finalIP sres FetchRes.fail =
        extractIP (searchInfo sres).toList := by
      unfold finalIP
      rw [h]
      rfl
    exact ⟨congrArg Prod.fst hfin, congrArg Prod.snd hfin⟩
  · intro h
    have hfin : finalIP sres fres = extractIP (searchInfo sres).toList := by
      unfold finalIP
      rw [h]
      rfl
    exact ⟨congrArg Prod.fst hfin, congrArg Prod.snd hfin⟩

/-- Witness for C4's amended theorem at the counterexample record. -/
theorem C4_page_pass_overwrites_both_witness :
    fetchTriggered (SearchRes.found "u" "施工と工事") = true ∧
    ((processRecord ⟨"n", "p", "e"⟩ (SearchRes.found "u" "施工と工事")
        (FetchRes.ok 200 "保険")).industry =
      extract_industry "保険".toList ∧
    (processRecord ⟨"n", "p", "e"⟩ (SearchRes.found "u" "施工と工事")
        (FetchRes.ok 200 "保険")).prefecture =
      extract_prefecture "保険".toList) :=
  ⟨by decide,
    (C4_page_pass_overwrites_both ⟨"n", "p", "e"⟩
      (SearchRes.found "u" "施工と工事") (FetchRes.ok 200 "保険") "保険").1
      (by decide) rfl⟩

/-- C7: the response has exactly one enriched record per input
record, in input order, whatever the per-record search and fetch
outcomes are. -/
theorem C7_one_output_per_input (industryTexts : String)
    (recs : List (CompanyItem × SearchRes × FetchRes)) :
    (handle_batch_request industryTexts recs).length = recs.length ∧
    ∀ i : Nat, (handle_batch_request industryTexts recs)[i]? =
      recs[i]?.map fun r => processRecord r.1 r.2.1 r.2.2 := by
  constructor
  · simp [handle_batch_request, enrichAll]
  · intro i
    simp [handle_batch_request, enrichAll]

/-- C9, counterexample: when the search returns no results the
snippet is empty, so the industry is the sentinel and the prefecture
empty — which makes line 108 trigger the page fetch (on the empty
URL) rather than skip it. -/
theorem C9_fetch_still_attempted :
    searchUrl SearchRes.empty = "" ∧ fetchTriggered SearchRes.empty = true := by
  refine ⟨by decide, by decide⟩

/-- C9, amended: a record whose search returns no results comes out
with empty url, sentinel industry, empty prefecture and empty
excerpt; the fetch of the empty URL is attempted and its failure
leaves those values unchanged.  (The response record has no
diagnostic-log field at all in this revision.) -/
theorem C9_empty_search_record (item : CompanyItem) :
    fetchTriggered SearchRes.empty = true ∧
    processRecord item SearchRes.empty FetchRes.fail =
      { company_name := item.company_name, email := item.email, url := "",
        industry := unclassifiable, prefecture := "", excerpt := "" } := by
  constructor
  · decide
  · rfl

/-- C10: the HTTP response is exactly the list built by the
per-record loop — the external-classification step never modifies a
record — and the internal excerpt field is empty on every record
whose industry is not the sentinel. -/
theorem C10_response_untouched (industryTexts : String)
    (recs : List (CompanyItem × SearchRes × FetchRes)) :
    handle_batch_request industryTexts recs = enrichAll recs ∧
    ∀ r ∈ handle_batch_request industryTexts recs,
      r.industry ≠ unclassifiable → r.excerpt = "" := by
  refine ⟨rfl, ?_⟩
  intro r hr hind
  rcases List.mem_map.mp hr with ⟨x, _, rfl⟩
  have hind' : (finalIP x.2.1 x.2.2).1 ≠ unclassifiable := hind
  show (if (finalIP x.2.1 x.2.2).1 = unclassifiable then
      String.mk (dify_context (targetText x.2.1 x.2.2).toList)
    else "") = ""
  rw [if_neg hind']

/-- Witness for C10 at a one-record batch with a classified snippet. -/
theorem C10_response_untouched_witness :
    processRecord ⟨"a", "b", "c"⟩ (SearchRes.found "u" "施工と工事")
        FetchRes.fail ∈
      handle_batch_request "tx"
        [(⟨"a", "b", "c"⟩, SearchRes.found "u" "施工と工事", FetchRes.fail)] ∧
    (processRecord ⟨"a", "b", "c"⟩ (SearchRes.found "u" "施工と工事")
        FetchRes.fail).industry ≠ unclassifiable ∧
    (processRecord ⟨"a", "b", "c"⟩ (SearchRes.found "u" "施工と工事")
        FetchRes.fail).excerpt = "" :=
  ⟨by decide, by decide,
    (C10_response_untouched "tx"
        [(⟨"a", "b", "c"⟩, SearchRes.found "u" "施工と工事", FetchRes.fail)]).2
      _ (by decide) (by decide)⟩

/-- C5, counterexample: in `大阪府の話。本社所在地：東京都` a cued
match exists (`本社所在地`, a one-character gap, then `東京都`), yet
the extractor returns the earlier un-cued `大阪府`: the cue group is
optional, so the search is leftmost and does not prefer cued
matches. -/
theorem C5_no_cue_preference_counterexample :
    tryCue "大阪府の話。本社所在地：東京都".toList 6 "本社所在地".toList =
      some "東京都".toList ∧
    extract_prefecture "大阪府の話。本社所在地：東京都".toList = "大阪府" ∧
    ("大阪府" : String) ≠ "東京都" := by
  refine ⟨by decide, by decide, by decide⟩

/-- C5, amended: because the cue group is optional, the first regex
matches exactly when the prefecture pattern matches somewhere, taking
the leftmost combined match rather than preferring cued ones; the
extractor returns the empty string iff the prefecture pattern matches
nowhere in the text. -/
theorem C5_empty_iff_no_pref_match (t : List Char) :
    ((∀ i, prefAt t i = none) → extract_prefecture t = "") ∧
    ∀ i p, prefAt t i = some p → extract_prefecture t ≠ "" := by
  constructor
  · intro hall
    unfold extract_prefecture
    rw [show regexSearchPref t = none from
        List.findSome?_eq_none.mpr fun i _ => matchAt_none hall i]
    rw [show prefFallback t = none from
        List.findSome?_eq_none.mpr fun i _ => hall i]
  · intro i p hpi
    rcases hreg : regexSearchPref t with _ | q
    · rcases hfb : prefFallback t with _ | q'
      · exfalso
        have hnone := List.findSome?_eq_none.mp hfb i
          (List.mem_range.mpr (Nat.lt_succ_of_lt (prefAt_some_lt hpi)))
        rw [hpi] at hnone
        cases hnone
      · have hq' : q' ≠ [] := by
          rcases List.exists_of_findSome?_eq_some hfb with ⟨j, _, hj⟩
          exact prefMatch_ne_nil hj
        unfold extract_prefecture
        rw [hreg, hfb]
        intro he
        exact hq' (congrArg String.data he)
    · have hq : q ≠ [] := by
        rcases List.exists_of_findSome?_eq_some hreg with ⟨j, _, hj⟩
        rcases matchAt_some hj with ⟨j2, hj2⟩
        exact prefMatch_ne_nil hj2
      unfold extract_prefecture
      rw [hreg]
      intro he
      exact hq (congrArg String.data he)

/-- Witness for C5's amended theorem at the counterexample text. -/
theorem C5_empty_iff_no_pref_match_witness :
    prefAt "大阪府の話。本社所在地：東京都".toList 0 = some "大阪府".toList ∧
    extract_prefecture "大阪府の話。本社所在地：東京都".toList ≠ "" :=
  ⟨by decide,
    (C5_empty_iff_no_pref_match "大阪府の話。本社所在地：東京都".toList).2
      0 "大阪府".toList (by decide)⟩

/-- C6: when the excerpt selector runs (industry still the sentinel):
if the description-cue regex matches with whole-match start `i` and
cue-group end `pe`, the excerpt is the stripped window from `i - 100`
(clamped) to `pe + k` (clamped) for some `k` between 200 and 300;
with no cue match it is the stripped first `k` characters for some
`k` between 300 and 500 (namely 300); and in the orchestrator the
excerpt field of a sentinel record is exactly this selector's output
on the target text. -/
theorem C6_excerpt_window (t : List Char) :
    (∀ i pe, cueSearch t = some (i, pe) →
      ∃ k, 200 ≤ k ∧ k ≤ 300 ∧
        dify_context t =
          pyStrip ((t.drop (i - 100)).take
            (min t.length (pe + k) - (i - 100)))) ∧
    (cueSearch t = none →
      ∃ k, 300 ≤ k ∧ k ≤ 500 ∧ dify_context t = pyStrip (t.take k)) ∧
    ∀ item sres fres,
      (processRecord item sres fres).industry = unclassifiable →
      (processRecord item sres fres).excerpt =
        String.mk (dify_context (targetText sres fres).toList) := by
  refine ⟨?_, ?_, ?_⟩
  · intro i pe h
    refine ⟨tailRun t pe + 200, Nat.le_add_left 200 _, ?_, ?_⟩
    · have : tailRun t pe ≤ 100 := Nat.min_le_left 100 _
      omega
    · simp only [dify_context, h]
      rw [Nat.add_assoc]
  · intro h
    refine ⟨300, le_refl 300, by omega, ?_⟩
    simp only [dify_context, h]
  · intro item sres fres hind
    have hind' : (finalIP sres fres).1 = unclassifiable := hind
    show (if (finalIP sres fres).1 = unclassifiable then
        String.mk (dify_context (targetText sres fres).toList)
      else "") = String.mk (dify_context (targetText sres fres).toList)
    rw [if_pos hind']

/-- Witness for C6 at a short text containing `事業内容`. -/
theorem C6_excerpt_window_witness :
    cueSearch "あいう事業内容かきくけこ".toList = some (3, 7) ∧
    (∃ k, 200 ≤ k ∧ k ≤ 300 ∧
      dify_context "あいう事業内容かきくけこ".toList =
        pyStrip (("あいう事業内容かきくけこ".toList.drop (3 - 100)).take
          (min "あいう事業内容かきくけこ".toList.length (7 + k) - (3 - 100)))) :=
  ⟨by decide,
    (C6_excerpt_window "あいう事業内容かきくけこ".toList).1 3 7 (by decide)⟩

end Scraping
